import Mathlib

/-!
Verification of the covid19-sim sushi chef (`src/sushichef.py`) against its
natural-language specification.

The pipeline is embedded shallowly:
  - the Archive Store (`downloads.json`) is an association list with Python
    dict semantics (insertion order preserved, update in place);
  - HTML documents are a tree type; BeautifulSoup's `find` / `extract` are
    depth-first pre-order search / subtree removal;
  - the fetch phase (`download_content`) is a fold over the translation
    links of the root page, recording which URLs were fetched;
  - the build phase (`construct_channel`) processes languages in sorted key
    order, producing a two-level node tree, with failures as `Except`.

Library functions that live outside this repository (ricecooker's
`create_predictable_zip` and parts of `ArchiveDownloader`, le_utils'
language table) are modelled from the specification where noted.
-/

namespace Covid19Sim

/-! ### String utilities (embedding of Python string operations) -/

/-- Python's `'pat' in s` substring test, on the character lists. -/
def strContains (s pat : String) : Bool :=
  s.data.tails.any (fun t => pat.data.isPrefixOf t)

/-- Python's `s.endswith('/')`: the last character is a slash. -/
def endsSlash (s : String) : Bool :=
  s.data.getLast? == some '/'

/-- `os.path.join(a, b)` for a relative `b`. -/
def pathJoin (a b : String) : String := a ++ "/" ++ b

/-- Python's `s.strip()`: drop leading and trailing whitespace. -/
def pyStrip (s : String) : String :=
  ⟨(((s.data.dropWhile Char.isWhitespace).reverse.dropWhile
      Char.isWhitespace).reverse : List Char)⟩

/-- Code-point lexicographic comparison on character lists, as Python's
`str` comparison (and CPython's `list.sort` on strings) performs it. -/
def charListLe : List Char → List Char → Bool
  | [], _ => true
  | _ :: _, [] => false
  | a :: as, b :: bs =>
    if a.toNat < b.toNat then true
    else if b.toNat < a.toNat then false
    else charListLe as bs

/-- Python's `<=` on strings: code-point lexicographic order. -/
def strLeB (a b : String) : Bool := charListLe a.data b.data

/-- The ordering used by `lang_names.sort()`, as a decidable relation. -/
def strLe (a b : String) : Prop := strLeB a b = true

instance : DecidableRel strLe := fun a b => by
  unfold strLe; infer_instance

/-! ### HTML documents

A parsed page is a forest of element nodes. Each node carries its tag name,
its optional `id` attribute, its direct text content, its child forest and
its following siblings (the first-child/next-sibling encoding of a rose
forest, which keeps every recursion structural). This is what the script
inspects through BeautifulSoup: `soup.find(tag, {'id': i})` (depth-first
pre-order search) and `element.extract()` (removal of a whole subtree). -/

inductive HForest where
  | nil : HForest
  | node (tag : String) (idAttr : Option String) (txt : String)
      (children : HForest) (sib : HForest)
deriving Repr, DecidableEq

/-- The labels (tag, `id` attribute, direct text) of all nodes of a
forest, depth-first pre-order (BeautifulSoup's document order, the order
`find` visits candidates in). A label is an element's identity independent
of its subtree. -/
def forestLabels : HForest → List (String × Option String × String)
  | .nil => []
  | .node t a s c sb => (t, a, s) :: (forestLabels c ++ forestLabels sb)

/-- `element.text`: the concatenated text of a forest's nodes and their
descendants (applied to a single extracted element below). -/
def nodeText : HForest → String
  | .nil => ""
  | .node _ _ s c sb => s ++ nodeText c ++ nodeText sb

/-- `soup.find(tag, {'id': i})`: the first node in document order whose
tag and `id` attribute both match, returned as a single element (its
subtree, no siblings), or `none`. -/
def findForest (tag i : String) : HForest → Option HForest
  | .nil => none
  | .node t a s c sb =>
    if t = tag ∧ a = some i then some (.node t a s c .nil)
    else
      match findForest tag i c with
      | some r => some r
      | none => findForest tag i sb

/-- `soup.find(tag, {'id': i})` followed by `.extract()` on the match:
the extracted element (if any) and the forest with that whole subtree
removed. When nothing matches the forest is unchanged. -/
def extractForest (tag i : String) : HForest → Option HForest × HForest
  | .nil => (none, .nil)
  | .node t a s c sb =>
    if t = tag ∧ a = some i then (some (.node t a s c .nil), sb)
    else
      match extractForest tag i c with
      | (some r, c') => (some r, .node t a s c' sb)
      | (none, _) =>
        let p := extractForest tag i sb
        (p.1, .node t a s c p.2)

/-- UTF-8 encoding of one code point, as byte values. -/
def utf8Char (ch : Char) : List Nat :=
  let n := ch.toNat
  if n < 0x80 then [n]
  else if n < 0x800 then [0xC0 + n / 64, 0x80 + n % 64]
  else if n < 0x10000 then
    [0xE0 + n / 4096, 0x80 + (n / 64) % 64, 0x80 + n % 64]
  else
    [0xF0 + n / 0x40000, 0x80 + (n / 4096) % 64, 0x80 + (n / 64) % 64,
     0x80 + n % 64]

/-- UTF-8 encoding of a string, as a byte-value list: the bytes
`soup.prettify(encoding='utf-8')` yields for a given rendered text. -/
def utf8Bytes (s : String) : List Nat := s.data.flatMap utf8Char

/-- One line of indentation used by the pretty-printer. -/
def indentSp : Nat → String
  | 0 => ""
  | n + 1 => " " ++ indentSp n

/-- `soup.prettify()`: a deterministic indented rendering of the document —
a pure function of the tree, so serialization order is stable. -/
def prettifyForest (d : Nat) : HForest → String
  | .nil => ""
  | .node t a s c sb =>
    indentSp d ++ "<" ++ t ++
      (match a with
       | some i => " id=" ++ i
       | none => "") ++ ">\n" ++
    (if s = "" then "" else indentSp (d + 1) ++ s ++ "\n") ++
    prettifyForest (d + 1) c ++
    indentSp d ++ "</" ++ t ++ ">\n" ++
    prettifyForest d sb

/-- The serialized page as written by
`f.write(soup.prettify(encoding='utf-8'))`. -/
def prettifyBytes (doc : HForest) : List Nat :=
  utf8Bytes (prettifyForest 0 doc)

/-! ### The Archive Store and Python dict semantics

`self.data` maps a language display name to the fetch metadata returned by
`ArchiveDownloader.get_page`. A Python dict is modelled as an association
list: lookup finds the first (only) matching key, assignment replaces an
existing binding in place or appends a new one at the end. -/

structure ArchiveRecord where
  url : String
  index_path : String
  resources : List String
deriving Repr, DecidableEq

def dictGet {α : Type} (d : List (String × α)) (k : String) : Option α :=
  (d.find? (fun p => p.1 == k)).map Prod.snd

def dictMem {α : Type} (d : List (String × α)) (k : String) : Bool :=
  d.any (fun p => p.1 == k)

def dictSet {α : Type} (d : List (String × α)) (k : String) (v : α) :
    List (String × α) :=
  if dictMem d k then d.map (fun p => if p.1 == k then (k, v) else p)
  else d ++ [(k, v)]

def dictKeys {α : Type} (d : List (String × α)) : List String :=
  d.map Prod.fst

/-! ### The fetch phase: `download_content` -/

def ROOT_URL : String := "https://ncase.me/covid-19/"

/-- The environment `download_content` runs against: the filesystem (which
paths exist), the network (`ArchiveDownloader.get_page`, returning the
record for a URL), and the `div#translations` block of the root page as a
list of `(link text, href)` pairs for its `a[href]` elements (`none` when
the block is absent). The environment is fixed during a run and across the
two runs of the idempotence claim, modelling an unchanged remote site. -/
structure FetchEnv where
  fileExists : String → Bool
  getPage : String → ArchiveRecord
  translations : Option (List (String × String))

/-- `lang in self.data and os.path.exists(self.data[lang]['index_path'])`:
the store holds a valid record for this language. -/
def validRec (env : FetchEnv) (d : List (String × ArchiveRecord))
    (lang : String) : Bool :=
  match dictGet d lang with
  | some r => env.fileExists r.index_path
  | none => false

/-- `if not url.endswith('/'): url += '/'` -/
def appendSlash (url : String) : String :=
  if endsSlash url then url else url ++ "/"

/-- The body of the `for link in links` loop: strip the link text, skip the
"Help make a translation" link, skip languages with a valid record, else
fetch. Returns the updated store and the URLs fetched by this step. -/
def processLink (env : FetchEnv) (d : List (String × ArchiveRecord))
    (link : String × String) : List (String × ArchiveRecord) × List String :=
  let lang := pyStrip link.1
  if strContains lang "translation" then (d, [])
  else if validRec env d lang then (d, [])
  else
    let url := appendSlash link.2
    (dictSet d lang (env.getPage url), [url])

/-- Lines 76-77: fetch the English root page unless the store already has
a valid record for it. -/
def englishStep (env : FetchEnv) (data0 : List (String × ArchiveRecord)) :
    List (String × ArchiveRecord) × List String :=
  if validRec env data0 "English" then (data0, ([] : List String))
  else (dictSet data0 "English" (env.getPage ROOT_URL), [ROOT_URL])

/-- One iteration of the link loop, threading the store and the list of
fetched URLs. -/
def fetchStep (env : FetchEnv)
    (acc : List (String × ArchiveRecord) × List String)
    (link : String × String) : List (String × ArchiveRecord) × List String :=
  let s := processLink env acc.1 link
  (s.1, acc.2 ++ s.2)

/-- The store-only view of one link iteration. -/
def storeStep (env : FetchEnv) (d : List (String × ArchiveRecord))
    (link : String × String) : List (String × ArchiveRecord) :=
  (processLink env d link).1

/-- The whole fetch phase (`download_content`, src/sushichef.py lines
66-105): load the store, fetch the English root page unless a valid record
exists, then walk the translation links. Returns the final store (the
mapping subsequently written to `downloads.json`) and the list of URLs that
were actually fetched this run. -/
def download_content (env : FetchEnv) (data0 : List (String × ArchiveRecord)) :
    List (String × ArchiveRecord) × List String :=
  match env.translations with
  | none => englishStep env data0
  | some links => links.foldl (fetchStep env) (englishStep env data0)

/-! ### Saving the store: `open(path, 'w')` + `json.dump`

Lines 104-105 open `downloads.json` for writing (truncating it) and stream
the JSON serialization into it. The observable sequence of file contents is
therefore: the old content, then the empty file produced by `open(_, 'w')`,
then every prefix of the serialization as `json.dump` writes, ending with
the full serialization. -/

/-- A simple JSON rendering of one record (the exact shape is irrelevant
to the claims; only that the serialization of a non-empty store is a
non-empty string that is written incrementally). -/
def jsonOfRecord (r : ArchiveRecord) : String :=
  "\x7b\"url\": \"" ++ r.url ++ "\", \"index_path\": \"" ++ r.index_path ++
    "\", \"resources\": [" ++ String.intercalate ", "
      (r.resources.map (fun s => "\"" ++ s ++ "\"")) ++ "]\x7d"

/-- `json.dump(self.data, f, indent=4)`: the serialization of the store. -/
def jsonOfStore (d : List (String × ArchiveRecord)) : String :=
  "\x7b" ++ String.intercalate ", "
    (d.map (fun p => "\"" ++ p.1 ++ "\": " ++ jsonOfRecord p.2)) ++ "\x7d"

/-- The prefix of a string of the given character length. -/
def strTake (s : String) (n : Nat) : String := ⟨s.data.take n⟩

/-- The observable contents of `downloads.json` over the course of the
save: `old` before the call, `""` right after `open(path, 'w')` truncates,
then each prefix of the serialization as `json.dump` streams it. -/
def saveStates (old : String) (d : List (String × ArchiveRecord)) :
    List String :=
  let s := jsonOfStore d
  old :: (List.range (s.data.length + 1)).map (fun k => strTake s k)

/-! ### The deterministic archiver -/

/-- One file of a directory about to be zipped: its path relative to the
directory root, its byte contents, and the filesystem metadata
(modification time, permission bits) that a naive archiver would leak into
the output. -/
structure DirEntry where
  relPath : String
  content : List Nat
  mtime : Nat
  mode : Nat
deriving Repr, DecidableEq

/-- Ordering of zip entries by relative path. -/
def entryLe (a b : String × List Nat) : Prop := strLeB a.1 b.1 = true

instance : DecidableRel entryLe := fun a b => by
  unfold entryLe; infer_instance

/-- An injective serialization of the ordered entry list into the archive
byte stream. -/
def zipStream : List (String × List Nat) → List Nat
  | [] => []
  | (p, c) :: es =>
    p.length :: utf8Bytes p ++ c.length :: c ++ zipStream es

/-- Modelled from the spec: `ricecooker.utils.zip.create_predictable_zip`
is not part of this repository's sources. Per spec §4.4 it walks the
directory in a fixed lexicographic order and normalizes per-entry
timestamps and filesystem metadata to constants, so the archive bytes
depend only on the relative paths and the file contents. The model drops
`mtime`/`mode`, sorts the `(path, contents)` pairs by path, and serializes
the sorted list. -/
def create_predictable_zip (dir : List DirEntry) : List Nat :=
  zipStream
    (List.insertionSort entryLe (dir.map (fun e => (e.relPath, e.content))))

/-! ### The build phase: `construct_channel` -/

/-- A language as resolved by le_utils' `getlang_by_native_name`; the
script only reads its `primary_code`. -/
structure Language where
  primary_code : String
deriving Repr, DecidableEq

/-- A page held by the `ArchiveDownloader` client: its parsed document and
the local directory its files were saved under.

Modelled from the spec: the client's internals (`get_page_soup`,
`create_zip_dir_for_page`) are in ricecooker, not in this repository's
sources. Per spec §4.2 a page's files live in a directory deterministically
derived from its URL, and per spec §4.3 the transformed document is written
back to the same local path it was read from; accordingly
`get_page_soup url` parses `dir/index.html` and
`create_zip_dir_for_page url` yields the same `dir`. -/
structure ClientPage where
  doc : HForest
  dir : String

/-- The record's saved index page: `dir/index.html`. -/
def ClientPage.indexPath (p : ClientPage) : String :=
  pathJoin p.dir "index.html"

/-- The environment `construct_channel` runs against: the language table
(le_utils `getlang_by_native_name`, an external read-only lookup that may
fail) and the client's archived pages, keyed by URL. -/
structure ChefEnv where
  langTable : String → Option Language
  client : String → ClientPage

def ZIP_DIR : String := "chefdata/zips"

/-- The leaf `HTML5AppNode` built for one language (the fields the script
sets at lines 176-182). -/
structure LeafNode where
  source_id : String
  title : String
  zip_filename : String
  license_owner : String
  language : Option Language
  thumbnail : Option String
deriving Repr, DecidableEq

/-- The per-language `TopicNode` (line 175) with its children. -/
structure TopicNode where
  source_id : String
  title : String
  children : List LeafNode
deriving Repr, DecidableEq

structure Channel where
  children : List TopicNode
deriving Repr, DecidableEq

/-- Everything one iteration of the language loop produces: the topic node
added to the channel, and the file write performed on the staged page
(path and bytes of the `f.write(soup.prettify(encoding='utf-8'))` call). -/
structure LangOutput where
  topic : TopicNode
  writtenPath : String
  writtenBytes : List Nat
deriving Repr

/-- The body of the language loop (src/sushichef.py lines 122-184):
resolve the language, stage the page, drop the `div#translations` block if
present, read the title from `span#share_title` (an `AttributeError`
aborting the run when it is absent), pick the first resource containing
`dp3t.png` as thumbnail, write the prettified page, zip it under the
resolved code (or the raw display name), and build the topic with its
single leaf. -/
def processLang (env : ChefEnv) (lang_name : String)
    (lang_data : ArchiveRecord) : Except String LangOutput :=
  let lang := env.langTable lang_name
  let page := env.client lang_data.url
  let zip_dir := page.dir
  let doc1 := (extractForest "div" "translations" page.doc).2
  match findForest "span" "share_title" doc1 with
  | none => Except.error "AttributeError: NoneType has no attribute text"
  | some titleEl =>
    let title := nodeText titleEl
    let thumbnail :=
      (lang_data.resources.find? (fun r => strContains r "dp3t.png")).map
        (fun r => pathJoin zip_dir r)
    let zip_name :=
      match lang with
      | some l => l.primary_code
      | none => lang_name
    let zip_filename := pathJoin ZIP_DIR (zip_name ++ ".zip")
    Except.ok
      { topic :=
          { source_id := lang_name
            title := lang_name
            children :=
              [{ source_id := "covid19-sim-" ++ lang_name
                 title := title
                 zip_filename := zip_filename
                 license_owner := "Marcel Salathé & Nicky Case"
                 language := lang
                 thumbnail := thumbnail }] }
        writtenPath := pathJoin zip_dir "index.html"
        writtenBytes := prettifyBytes doc1 }

/-- The language loop over the sorted names: each language's topic is
appended in order; an error in any iteration aborts the whole run. -/
def buildTopics (env : ChefEnv) (data : List (String × ArchiveRecord)) :
    List String → Except String (List TopicNode)
  | [] => Except.ok []
  | n :: ns =>
    match dictGet data n with
    | none => Except.error "KeyError"
    | some r =>
      match processLang env n r with
      | Except.error e => Except.error e
      | Except.ok out => (buildTopics env data ns).map (out.topic :: ·)

/-- `construct_channel` (lines 107-186): sort the store's keys
(`lang_names.sort()`, code-point lexicographic order) and run the language
loop, producing the channel whose children are the per-language topics in
sorted order. -/
def construct_channel (env : ChefEnv)
    (data : List (String × ArchiveRecord)) : Except String Channel :=
  (buildTopics env data (List.insertionSort strLe (dictKeys data))).map
    Channel.mk

/-! ### Concrete inputs used by witnesses and counterexamples -/

/-- The extracted title element of the example pages. -/
def exTitleSpan : HForest :=
  .node "span" (some "share_title") "What Happens Next?" .nil .nil

/-- A saved page with a translations block and a title span. -/
def exPage : ClientPage :=
  { doc :=
      .node "html" none ""
        (.node "div" (some "translations") ""
          (.node "a" none "Français" .nil .nil)
          (.node "span" (some "share_title") "What Happens Next?" .nil .nil))
        .nil
    dir := "ziptmp/covid" }

/-- A saved page without a translations block. -/
def exPagePlain : ClientPage :=
  { doc :=
      .node "html" none ""
        (.node "span" (some "share_title") "What Happens Next?" .nil .nil)
        .nil
    dir := "ziptmp/covid" }

/-- A saved page whose title span is missing. -/
def exPageNoTitle : ClientPage :=
  { doc := .node "html" none "" (.node "p" none "hello" .nil .nil) .nil
    dir := "ziptmp/covid" }

/-- The translations block of `exPage`, as `extract` returns it. -/
def exTransDiv : HForest :=
  .node "div" (some "translations") ""
    (.node "a" none "Français" .nil .nil) .nil

/-- A build environment over the page without a translations block. -/
def exEnvPlain : ChefEnv :=
  { langTable := fun _ => some { primary_code := "zz" }
    client := fun _ => exPagePlain }

/-- A build environment whose language table resolves nothing. -/
def exEnvK : ChefEnv :=
  { langTable := fun _ => none
    client := fun _ => exPage }

def exRecK : ArchiveRecord :=
  { url := "https://k.example/"
    index_path := "arch/k/index.html"
    resources := ["k/img/dp3t.png", "k/app.js"] }

def exDataK : List (String × ArchiveRecord) := [("Klingon", exRecK)]

/-- A build environment that resolves every display name to code `zz`. -/
def exEnvZ : ChefEnv :=
  { langTable := fun _ => some { primary_code := "zz" }
    client := fun _ => exPage }

/-- A build environment over the page with no title span. -/
def exEnvNoTitle : ChefEnv :=
  { langTable := fun _ => none
    client := fun _ => exPageNoTitle }

/-- A record whose resources contain no thumbnail fragment. -/
def exRecNoThumb : ArchiveRecord :=
  { url := "https://k.example/"
    index_path := "arch/k/index.html"
    resources := ["k/app.js", "k/style.css"] }

/-- Store with the three languages of the spec's ordering example. -/
def exData5 : List (String × ArchiveRecord) :=
  [("Français", { url := "https://f/", index_path := "af/index.html", resources := [] }),
   ("English", { url := "https://e/", index_path := "ae/index.html", resources := [] }),
   ("Español", { url := "https://s/", index_path := "as/index.html", resources := [] })]

/-- The topic `construct_channel` builds for language `n` under `exEnvZ`. -/
def exTopic5 (n : String) : TopicNode :=
  { source_id := n
    title := n
    children :=
      [{ source_id := "covid19-sim-" ++ n
         title := "What Happens Next?"
         zip_filename := "chefdata/zips/zz.zip"
         license_owner := "Marcel Salathé & Nicky Case"
         language := some { primary_code := "zz" }
         thumbnail := none }] }

/-- The channel built from `exData5`: children in lexicographic order. -/
def exChan5 : Channel :=
  ⟨[exTopic5 "English", exTopic5 "Español", exTopic5 "Français"]⟩

/-- Directory listings with identical relative paths and contents but
different order and filesystem metadata. -/
def exDir1 : List DirEntry :=
  [{ relPath := "index.html", content := [60, 104, 62], mtime := 100, mode := 420 },
   { relPath := "app.js", content := [9, 8], mtime := 200, mode := 493 }]

def exDir2 : List DirEntry :=
  [{ relPath := "app.js", content := [9, 8], mtime := 987654, mode := 384 },
   { relPath := "index.html", content := [60, 104, 62], mtime := 1, mode := 511 }]

/-- A one-language store for the save-phase counterexample. -/
def exStore4 : List (String × ArchiveRecord) :=
  [("English", { url := ROOT_URL, index_path := "a/index.html", resources := [] })]

/-- Fetch environment for the idempotence witness: both pages exist on
disk, the root page links one translation. -/
def exFetchEnv : FetchEnv :=
  { fileExists := fun _ => true
    getPage := fun u =>
      { url := u, index_path := "arch/" ++ u ++ "/index.html", resources := [] }
    translations := some [("Français ", "https://ncase.me/covid-19/fr")] }

def exData6 : List (String × ArchiveRecord) := []

/-- A store already valid for both languages of `exFetchEnv`. -/
def exData6v : List (String × ArchiveRecord) :=
  [("English", { url := ROOT_URL, index_path := "e6/index.html", resources := [] }),
   ("Français", { url := "https://ncase.me/covid-19/fr/",
                  index_path := "f6/index.html", resources := [] })]

/-- A mixed-validity scenario: only the saved Français page exists on
disk, the root page links two translations. -/
def exEnvMix : FetchEnv :=
  { fileExists := fun p => p == "f6/index.html"
    getPage := fun u =>
      { url := u, index_path := "arch/" ++ u ++ "/index.html", resources := [] }
    translations := some [("Français ", "https://ncase.me/covid-19/fr"),
                          ("Deutsch", "https://ncase.me/covid-19/de")] }

/-- A loaded store where Français is valid but English's index page is
missing on disk (so English is re-fetched and Deutsch newly fetched). -/
def exDataMix : List (String × ArchiveRecord) :=
  [("English", { url := ROOT_URL, index_path := "e6/index.html", resources := [] }),
   ("Français", { url := "https://ncase.me/covid-19/fr/",
                  index_path := "f6/index.html", resources := [] })]

/-- Fetch environment for the C10 counterexample: the root page carries a
link whose text contains "translation", and the loaded store already holds
a record under that very text, fetched from a URL with no trailing slash. -/
def exEnvX : FetchEnv :=
  { fileExists := fun _ => true
    getPage := fun u =>
      { url := u, index_path := "arch/" ++ u ++ "/index.html", resources := [] }
    translations := some [("Xtranslation", "https://x.example/a")] }

def exRecX : ArchiveRecord :=
  { url := "nope", index_path := "x/index.html", resources := [] }

def exDataX : List (String × ArchiveRecord) :=
  [("English", { url := ROOT_URL, index_path := "e/index.html", resources := [] }),
   ("Xtranslation", exRecX)]

/-! ## Theorems

First, order theory for the code-point lexicographic comparison; then the
claims, in order. -/

theorem charListLe_total (a b : List Char) :
    charListLe a b = true ∨ charListLe b a = true := by
  induction a generalizing b with
  | nil => left; rfl
  | cons x xs ih =>
    cases b with
    | nil => right; rfl
    | cons y ys =>
      by_cases hxy : x.toNat < y.toNat
      · left; simp [charListLe, hxy]
      · by_cases hyx : y.toNat < x.toNat
        · right; simp [charListLe, hyx]
        · rcases ih ys with h | h
          · left; simp [charListLe, hxy, hyx, h]
          · right; simp [charListLe, hxy, hyx, h]

theorem charListLe_trans {a b c : List Char} (hab : charListLe a b = true)
    (hbc : charListLe b c = true) : charListLe a c = true := by
  induction a generalizing b c with
  | nil => rfl
  | cons x xs ih =>
    cases b with
    | nil => simp [charListLe] at hab
    | cons y ys =>
      cases c with
      | nil => simp [charListLe] at hbc
      | cons z zs =>
        by_cases hxy : x.toNat < y.toNat
        · by_cases hyz : y.toNat < z.toNat
          · have hxz : x.toNat < z.toNat := Nat.lt_trans hxy hyz
            simp [charListLe, hxz]
          · by_cases hzy : z.toNat < y.toNat
            · simp [charListLe, hyz, hzy] at hbc
            · have hyz' : y.toNat = z.toNat := Nat.le_antisymm
                (Nat.le_of_not_lt hzy) (Nat.le_of_not_lt hyz)
              have hxz : x.toNat < z.toNat := hyz' ▸ hxy
              simp [charListLe, hxz]
        · by_cases hyx : y.toNat < x.toNat
          · simp [charListLe, hxy, hyx] at hab
          · have hxy' : x.toNat = y.toNat := Nat.le_antisymm
              (Nat.le_of_not_lt hyx) (Nat.le_of_not_lt hxy)
            by_cases hyz : y.toNat < z.toNat
            · have hxz : x.toNat < z.toNat := hxy' ▸ hyz
              simp [charListLe, hxz]
            · by_cases hzy : z.toNat < y.toNat
              · simp [charListLe, hyz, hzy] at hbc
              · have hyz' : y.toNat = z.toNat := Nat.le_antisymm
                  (Nat.le_of_not_lt hzy) (Nat.le_of_not_lt hyz)
                have hxz : ¬ x.toNat < z.toNat := by omega
                have hzx : ¬ z.toNat < x.toNat := by omega
                simp [charListLe, hxy, hyx] at hab
                simp [charListLe, hyz, hzy] at hbc
                simp [charListLe, hxz, hzx]
                exact ih hab hbc

theorem charListLe_antisymm {a b : List Char} (hab : charListLe a b = true)
    (hba : charListLe b a = true) : a = b := by
  induction a generalizing b with
  | nil =>
    cases b with
    | nil => rfl
    | cons y ys => simp [charListLe] at hba
  | cons x xs ih =>
    cases b with
    | nil => simp [charListLe] at hab
    | cons y ys =>
      by_cases hxy : x.toNat < y.toNat
      · have : ¬ y.toNat < x.toNat := by omega
        simp [charListLe, hxy, this] at hba
      · by_cases hyx : y.toNat < x.toNat
        · simp [charListLe, hxy, hyx] at hab
        · have hxy' : x.toNat = y.toNat := Nat.le_antisymm
            (Nat.le_of_not_lt hyx) (Nat.le_of_not_lt hxy)
          simp [charListLe, hxy, hyx] at hab hba
          have hx : x = y := Char.ext (UInt32.ext_iff.mpr hxy')
          exact hx ▸ congrArg (x :: ·) (ih hab hba)

theorem strLe_total : ∀ a b : String, strLe a b ∨ strLe b a :=
  fun a b => charListLe_total a.data b.data

theorem strLe_trans : ∀ {a b c : String}, strLe a b → strLe b c → strLe a c :=
  fun hab hbc => charListLe_trans hab hbc

theorem strLe_antisymm : ∀ {a b : String}, strLe a b → strLe b a → a = b := by
  intro a b hab hba
  have h := charListLe_antisymm hab hba
  cases a; cases b; exact congrArg String.mk h

/-! ### Claim C1: the deterministic archiver -/

theorem sorted_entries_eq {m1 m2 : List (String × List Nat)}
    (hp : m1.Perm m2) (hd : (m1.map Prod.fst).Nodup) :
    List.insertionSort entryLe m1 = List.insertionSort entryLe m2 := by
  haveI : IsTotal (String × List Nat) entryLe :=
    ⟨fun a b => charListLe_total a.1.data b.1.data⟩
  haveI : IsTrans (String × List Nat) entryLe :=
    ⟨fun _ _ _ hab hbc => charListLe_trans hab hbc⟩
  have hs1 := List.sorted_insertionSort entryLe m1
  have hs2 := List.sorted_insertionSort entryLe m2
  have hp1 := List.perm_insertionSort entryLe m1
  have hp2 := List.perm_insertionSort entryLe m2
  have hp12 : (List.insertionSort entryLe m1).Perm
      (List.insertionSort entryLe m2) := hp1.trans (hp.trans hp2.symm)
  -- strengthen sortedness with key distinctness so the relation is
  -- antisymmetric
  have hd1 : ((List.insertionSort entryLe m1).map Prod.fst).Nodup :=
    ((hp1.map Prod.fst).nodup_iff).mpr hd
  have hd2 : ((List.insertionSort entryLe m2).map Prod.fst).Nodup :=
    ((hp12.map Prod.fst).nodup_iff).mp hd1
  have hpw1 : (List.insertionSort entryLe m1).Pairwise
      (fun a b => entryLe a b ∧ a.1 ≠ b.1) :=
    List.Pairwise.and hs1 (List.pairwise_map.mp hd1)
  have hpw2 : (List.insertionSort entryLe m2).Pairwise
      (fun a b => entryLe a b ∧ a.1 ≠ b.1) :=
    List.Pairwise.and hs2 (List.pairwise_map.mp hd2)
  haveI : IsAntisymm (String × List Nat)
      (fun a b => entryLe a b ∧ a.1 ≠ b.1) :=
    ⟨fun _ _ hab hba => absurd (strLe_antisymm hab.1 hba.1) hab.2⟩
  exact List.eq_of_perm_of_sorted hp12 hpw1 hpw2

/-- Claim C1: for any two directories whose relative file paths and
per-file byte contents are identical — regardless of timestamps or other
filesystem metadata, and regardless of traversal order — the archive
operation `create_predictable_zip` produces byte-identical archives. -/
theorem c1_deterministic_zip (d1 d2 : List DirEntry)
    (hp : (d1.map (fun e => (e.relPath, e.content))).Perm
      (d2.map (fun e => (e.relPath, e.content))))
    (hd : (d1.map DirEntry.relPath).Nodup) :
    create_predictable_zip d1 = create_predictable_zip d2 := by
  unfold create_predictable_zip
  have hd' : ((d1.map (fun e => (e.relPath, e.content))).map Prod.fst).Nodup := by
    rw [List.map_map]
    exact hd
  rw [sorted_entries_eq hp hd']

/-- Witness for C1: the two concrete listings differ in order, timestamps
and permission bits but agree on paths and contents, and their archives are
byte-identical. -/
theorem c1_witness :
    (exDir1.map (fun e => (e.relPath, e.content))).Perm
        (exDir2.map (fun e => (e.relPath, e.content))) ∧
      (exDir1.map DirEntry.relPath).Nodup ∧
      create_predictable_zip exDir1 = create_predictable_zip exDir2 :=
  ⟨by decide, by decide, c1_deterministic_zip exDir1 exDir2 (by decide) (by decide)⟩

/-! ### Claim C2: fallback for an unresolvable language name

The run does not fail and the archive is named after the raw display name,
but the leaf node's language field is passed `lang`, which is `None` when
resolution failed — it does not equal the raw display name. -/

/-- Counterexample for C2: with a language table that resolves nothing,
the run succeeds and the archive for "Klingon" is named
`chefdata/zips/Klingon.zip`, but the leaf node's language field is `none`,
not a language whose code is the raw display name "Klingon". -/
theorem c2_counterexample :
    (construct_channel exEnvK exDataK).toOption.map
        (fun ch => ch.children.map (fun t => t.children.map LeafNode.language))
      = some [[none]] ∧
    (construct_channel exEnvK exDataK).toOption.map
        (fun ch => ch.children.map (fun t => t.children.map LeafNode.zip_filename))
      = some [["chefdata/zips/Klingon.zip"]] ∧
    (none : Option Language) ≠ some { primary_code := "Klingon" } :=
  ⟨by rfl, by rfl, by decide⟩

/-- Claim C2 (amended): for every language whose display name has no match
in the language table, the per-language step does not fail: the archive is
named with the raw display name as filename stem, and the leaf node's
language field is left unset (`none`) — not set to the raw display name. -/
theorem c2_language_fallback (env : ChefEnv) (n : String)
    (r : ArchiveRecord) (el : HForest)
    (hl : env.langTable n = none)
    (hs : findForest "span" "share_title"
      (extractForest "div" "translations" (env.client r.url).doc).2 = some el) :
    ∃ out, processLang env n r = Except.ok out ∧
      out.topic.children.map LeafNode.zip_filename
        = [pathJoin ZIP_DIR (n ++ ".zip")] ∧
      out.topic.children.map LeafNode.language = [none] := by
  simp only [processLang, hs, hl]
  exact ⟨_, rfl, rfl, rfl⟩

/-- Witness for C2 (amended) at the concrete Klingon input. -/
theorem c2_witness :
    exEnvK.langTable "Klingon" = none ∧
    findForest "span" "share_title"
        (extractForest "div" "translations" (exEnvK.client exRecK.url).doc).2
      = some exTitleSpan ∧
    ∃ out, processLang exEnvK "Klingon" exRecK = Except.ok out ∧
      out.topic.children.map LeafNode.zip_filename
        = [pathJoin ZIP_DIR ("Klingon" ++ ".zip")] ∧
      out.topic.children.map LeafNode.language = [none] :=
  ⟨rfl, by rfl, c2_language_fallback exEnvK "Klingon" exRecK _ rfl (by rfl)⟩

/-! ### Claim C3: the transformed page write -/

/-- Claim C3: the per-language step writes the serialized document to the
same local path the page was read from (the record's saved index page,
`dir/index.html`), as the UTF-8 bytes of the deterministic serialization of
the transformed document; and any step over an identical saved page writes
the identical path and bytes, so repeated transforms of unchanged input are
byte-identical. (The client's staging directory is modelled from the spec,
see `ClientPage`.) -/
theorem c3_transform_write (env : ChefEnv) (n : String)
    (r : ArchiveRecord) (el : HForest)
    (hs : findForest "span" "share_title"
      (extractForest "div" "translations" (env.client r.url).doc).2 = some el) :
    ∃ out, processLang env n r = Except.ok out ∧
      out.writtenPath = (env.client r.url).indexPath ∧
      out.writtenBytes = utf8Bytes (prettifyForest 0
        (extractForest "div" "translations" (env.client r.url).doc).2) ∧
      ∀ env2 : ChefEnv, ∀ n2 : String, ∀ r2 : ArchiveRecord,
        env2.client r2.url = env.client r.url →
        ∃ out2, processLang env2 n2 r2 = Except.ok out2 ∧
          out2.writtenPath = out.writtenPath ∧
          out2.writtenBytes = out.writtenBytes := by
  simp only [processLang, hs]
  refine ⟨_, rfl, rfl, rfl, ?_⟩
  intro env2 n2 r2 heq
  simp only [processLang, heq, hs]
  exact ⟨_, rfl, rfl, rfl⟩

/-- Witness for C3 at a concrete page. -/
theorem c3_witness :
    findForest "span" "share_title"
        (extractForest "div" "translations" (exEnvZ.client exRecK.url).doc).2
      = some exTitleSpan ∧
    ∃ out, processLang exEnvZ "Français" exRecK = Except.ok out ∧
      out.writtenPath = (exEnvZ.client exRecK.url).indexPath ∧
      out.writtenBytes = utf8Bytes (prettifyForest 0
        (extractForest "div" "translations" (exEnvZ.client exRecK.url).doc).2) := by
  refine ⟨by rfl, ?_⟩
  obtain ⟨out, h1, h2, h3, _⟩ :=
    c3_transform_write exEnvZ "Français" exRecK
      exTitleSpan (by rfl)
  exact ⟨out, h1, h2, h3⟩

/-! ### Claim C7: thumbnail selection -/

/-- Claim C7: the leaf node's thumbnail is built from the first path in the
record's resource list (in recorded order) containing the fragment
`dp3t.png`, joined onto the staging directory; when no resource contains
the fragment the thumbnail is left unset and no error is raised. -/
theorem c7_thumbnail (env : ChefEnv) (n : String)
    (r : ArchiveRecord) (el : HForest)
    (hs : findForest "span" "share_title"
      (extractForest "div" "translations" (env.client r.url).doc).2 = some el) :
    ∃ out, processLang env n r = Except.ok out ∧
      out.topic.children.map LeafNode.thumbnail
        = [(r.resources.find? (fun s => strContains s "dp3t.png")).map
            (fun s => pathJoin (env.client r.url).dir s)] ∧
      ((∀ s ∈ r.resources, strContains s "dp3t.png" = false) →
        out.topic.children.map LeafNode.thumbnail = [none]) := by
  simp only [processLang, hs]
  refine ⟨_, rfl, rfl, ?_⟩
  intro h
  have hf : r.resources.find? (fun s => strContains s "dp3t.png") = none := by
    apply List.find?_eq_none.mpr
    intro x hx
    simp [h x hx]
  simp [hf]

/-- Witness for C7: a record with no matching resource yields a leaf with
no thumbnail, and no error. -/
theorem c7_witness :
    findForest "span" "share_title"
        (extractForest "div" "translations" (exEnvK.client exRecNoThumb.url).doc).2
      = some exTitleSpan ∧
    (∀ s ∈ exRecNoThumb.resources, strContains s "dp3t.png" = false) ∧
    ∃ out, processLang exEnvK "Klingon" exRecNoThumb = Except.ok out ∧
      out.topic.children.map LeafNode.thumbnail = [none] := by
  refine ⟨by rfl, by decide, ?_⟩
  obtain ⟨out, h1, _, h3⟩ :=
    c7_thumbnail exEnvK "Klingon" exRecNoThumb
      exTitleSpan (by rfl)
  exact ⟨out, h1, h3 (by decide)⟩

/-! ### Claim C8: a missing title element is fatal -/

theorem processLang_err {env : ChefEnv} {n : String} {r : ArchiveRecord}
    (hs : findForest "span" "share_title"
      (extractForest "div" "translations" (env.client r.url).doc).2 = none) :
    processLang env n r
      = Except.error "AttributeError: NoneType has no attribute text" := by
  simp only [processLang, hs]

theorem processLang_ok_shape {env : ChefEnv} {n : String} {r : ArchiveRecord}
    {out : LangOutput} (h : processLang env n r = Except.ok out) :
    out.topic.title = n ∧ out.topic.children.length = 1 := by
  simp only [processLang] at h
  cases hf : findForest "span" "share_title"
      (extractForest "div" "translations" (env.client r.url).doc).2 with
  | none => rw [hf] at h; cases h
  | some el =>
    rw [hf] at h
    cases h
    exact ⟨rfl, rfl⟩

theorem buildTopics_ne_ok {env : ChefEnv} {data : List (String × ArchiveRecord)}
    {l : List String} {n : String} {r : ArchiveRecord} {e : String}
    (hmem : n ∈ l) (hget : dictGet data n = some r)
    (herr : processLang env n r = Except.error e) :
    ∀ ts, buildTopics env data l ≠ Except.ok ts := by
  induction l with
  | nil => cases hmem
  | cons m ms ih =>
    intro ts hok
    simp only [buildTopics] at hok
    rcases List.mem_cons.mp hmem with hnm | hmem'
    · subst hnm
      simp only [hget, herr] at hok
      cases hok
    · cases hg : dictGet data m with
      | none => simp only [hg] at hok; cases hok
      | some r' =>
        simp only [hg] at hok
        cases hp : processLang env m r' with
        | error e' => simp only [hp] at hok; cases hok
        | ok out =>
          simp only [hp] at hok
          cases hb : buildTopics env data ms with
          | error e' => simp only [hb, Except.map] at hok; cases hok
          | ok ts' => exact ih hmem' ts' hb

/-- Claim C8: if any language's page lacks the uniquely identified
`span#share_title` element, `construct_channel` raises (the `NoneType`
attribute error) and the whole run aborts — no channel is produced, the
language is not skipped; conversely, when the element is present the
extracted title is that element's text. -/
theorem c8_missing_title_fatal :
    (∀ (env : ChefEnv) (data : List (String × ArchiveRecord)) (lang : String)
       (r : ArchiveRecord) (ch : Channel),
       lang ∈ dictKeys data → dictGet data lang = some r →
       findForest "span" "share_title"
         (extractForest "div" "translations" (env.client r.url).doc).2 = none →
       construct_channel env data ≠ Except.ok ch)
    ∧ (∀ (env : ChefEnv) (n : String) (r : ArchiveRecord) (el : HForest),
        findForest "span" "share_title"
          (extractForest "div" "translations" (env.client r.url).doc).2 = some el →
        ∃ out, processLang env n r = Except.ok out ∧
          out.topic.children.map LeafNode.title = [nodeText el]) := by
  constructor
  · intro env data lang r ch hmem hget hnone hok
    have hmem' : lang ∈ List.insertionSort strLe (dictKeys data) :=
      ((List.perm_insertionSort strLe (dictKeys data)).mem_iff).mpr hmem
    unfold construct_channel at hok
    cases hb : buildTopics env data (List.insertionSort strLe (dictKeys data)) with
    | error e => simp only [hb, Except.map] at hok; cases hok
    | ok ts =>
      exact buildTopics_ne_ok hmem' hget (processLang_err hnone) ts hb
  · intro env n r el hs
    simp only [processLang, hs]
    exact ⟨_, rfl, rfl⟩

/-- Witness for C8: a concrete store whose only page lacks the title span
yields no channel; the same record under an environment whose page has the
span yields the leaf titled with the span's text. -/
theorem c8_witness :
    ("Klingon" ∈ dictKeys exDataK) ∧
    dictGet exDataK "Klingon" = some exRecK ∧
    findForest "span" "share_title"
        (extractForest "div" "translations" (exEnvNoTitle.client exRecK.url).doc).2
      = none ∧
    construct_channel exEnvNoTitle exDataK ≠ Except.ok ⟨[]⟩ ∧
    ∃ out, processLang exEnvZ "Klingon" exRecK = Except.ok out ∧
      out.topic.children.map LeafNode.title = [nodeText exTitleSpan] := by
  refine ⟨by decide, by rfl, by rfl,
    c8_missing_title_fatal.1 exEnvNoTitle exDataK "Klingon" exRecK ⟨[]⟩
      (by decide) (by rfl) (by rfl), ?_⟩
  obtain ⟨out, h1, h2⟩ :=
    c8_missing_title_fatal.2 exEnvZ "Klingon" exRecK exTitleSpan (by rfl)
  exact ⟨out, h1, h2⟩

/-! ### Claim C5: ordering and shape of the output tree -/

theorem buildTopics_ok {env : ChefEnv} {data : List (String × ArchiveRecord)} :
    ∀ {l : List String} {ts : List TopicNode},
    buildTopics env data l = Except.ok ts →
    ts.map TopicNode.title = l ∧
    ∀ t ∈ ts, ∃ r out, dictGet data t.title = some r ∧
      processLang env t.title r = Except.ok out ∧ out.topic = t ∧
      t.children.length = 1 := by
  intro l
  induction l with
  | nil =>
    intro ts h
    simp only [buildTopics] at h
    cases h
    exact ⟨rfl, by intro t ht; cases ht⟩
  | cons m ms ih =>
    intro ts h
    simp only [buildTopics] at h
    cases hg : dictGet data m with
    | none => simp only [hg] at h; cases h
    | some r =>
      simp only [hg] at h
      cases hp : processLang env m r with
      | error e => simp only [hp] at h; cases h
      | ok out =>
        simp only [hp] at h
        cases hb : buildTopics env data ms with
        | error e => simp only [hb, Except.map] at h; cases h
        | ok ts' =>
          simp only [hb, Except.map] at h
          cases h
          obtain ⟨ih1, ih2⟩ := ih hb
          obtain ⟨hto, _⟩ := processLang_ok_shape hp
          constructor
          · simp [hto, ih1]
          · intro t ht
            rcases List.mem_cons.mp ht with ht1 | ht2
            · subst ht1
              refine ⟨r, out, ?_, ?_, rfl, (processLang_ok_shape hp).2⟩
              · rw [hto]; exact hg
              · rw [hto]; exact hp
            · exact ih2 t ht2

/-- Claim C5: for every store, a successful `construct_channel` appends
one topic per language key to the root in code-point lexicographic order
of display name (the sorted key list, a permutation of the keys), each
topic labeled with the display name and holding exactly one leaf produced
by the per-language step. -/
theorem c5_sorted_children (env : ChefEnv)
    (data : List (String × ArchiveRecord)) (ch : Channel)
    (hok : construct_channel env data = Except.ok ch) :
    ch.children.map TopicNode.title
      = List.insertionSort strLe (dictKeys data) ∧
    List.Sorted strLe (ch.children.map TopicNode.title) ∧
    (ch.children.map TopicNode.title).Perm (dictKeys data) ∧
    ∀ t ∈ ch.children, ∃ r out, dictGet data t.title = some r ∧
      processLang env t.title r = Except.ok out ∧ out.topic = t ∧
      t.children.length = 1 := by
  haveI : IsTotal String strLe := ⟨strLe_total⟩
  haveI : IsTrans String strLe := ⟨fun _ _ _ => strLe_trans⟩
  unfold construct_channel at hok
  cases hb : buildTopics env data (List.insertionSort strLe (dictKeys data)) with
  | error e => simp only [hb, Except.map] at hok; cases hok
  | ok ts =>
    simp only [hb, Except.map] at hok
    cases hok
    obtain ⟨h1, h2⟩ := buildTopics_ok hb
    refine ⟨h1, ?_, ?_, h2⟩
    · rw [h1]
      exact List.sorted_insertionSort strLe (dictKeys data)
    · rw [h1]
      exact List.perm_insertionSort strLe (dictKeys data)

/-- Witness for C5: the spec's example `{Français, English, Español}`
comes out in the order English, Español, Français. -/
theorem c5_witness :
    construct_channel exEnvZ exData5 = Except.ok exChan5 ∧
    exChan5.children.map TopicNode.title = ["English", "Español", "Français"] ∧
    List.Sorted strLe (exChan5.children.map TopicNode.title) ∧
    (exChan5.children.map TopicNode.title).Perm (dictKeys exData5) := by
  have h := c5_sorted_children exEnvZ exData5 exChan5 (by rfl)
  exact ⟨by rfl, by decide, h.2.1, h.2.2.1⟩

/-! ### Claim C4: saving the store is not atomic

Lines 104-105 are `with open(self.ARCHIVE_DATA, 'w') as f:
json.dump(self.data, f, indent=4)`: the store file itself is opened for
writing (truncated) and the serialization streamed into it — there is no
write-then-replace, so partial serializations are observable. -/

/-- Counterexample for C4: saving a one-record store over a previous store
content `"\x7b\x7d"` passes through the empty file state, which is neither
the old content nor the full serialization — the write is observably not
atomic. -/
theorem c4_counterexample :
    ¬ ∀ s ∈ saveStates "\x7b\x7d" exStore4,
        s = "\x7b\x7d" ∨ s = jsonOfStore exStore4 := by
  intro h
  have hm : "" ∈ saveStates "\x7b\x7d" exStore4 := by
    refine List.mem_cons.mpr (Or.inr ?_)
    exact List.mem_map.mpr ⟨0, List.mem_range.mpr (by omega), rfl⟩
  rcases h "" hm with h1 | h1
  · exact absurd h1 (by decide)
  · exact absurd h1 (by decide)

/-- Claim C4 (amended): `save` serializes the full mapping in one
sequential pass directly into the store file (truncate, then stream): the
final observable content of `downloads.json` is the full serialization,
but the write is not atomic write-then-replace — the intermediate states
are exactly the truncated file and the prefixes of the serialization. -/
theorem c4_save_states (old : String) (d : List (String × ArchiveRecord)) :
    (saveStates old d).getLast? = some (jsonOfStore d) ∧
    "" ∈ saveStates old d ∧
    ∀ s ∈ saveStates old d, s = old ∨ ∃ k, s = strTake (jsonOfStore d) k := by
  refine ⟨?_, ?_, ?_⟩
  · show (_ :: (List.range _).map _).getLast? = _
    rw [List.range_succ, List.map_append]
    simp only [List.map_cons, List.map_nil]
    rw [← List.cons_append]
    rw [List.getLast?_concat]
    show some (strTake (jsonOfStore d) (jsonOfStore d).data.length) = _
    unfold strTake
    rw [List.take_length]
  · refine List.mem_cons.mpr (Or.inr ?_)
    exact List.mem_map.mpr ⟨0, List.mem_range.mpr (by omega), rfl⟩
  · intro s hs
    rcases List.mem_cons.mp hs with h | h
    · exact Or.inl h
    · obtain ⟨k, _, hk⟩ := List.mem_map.mp h
      exact Or.inr ⟨k, hk.symm⟩

/-- Witness for C4 (amended) at the concrete one-record store. -/
theorem c4_witness :
    (saveStates "\x7b\x7d" exStore4).getLast? = some (jsonOfStore exStore4) ∧
    "" ∈ saveStates "\x7b\x7d" exStore4 :=
  ⟨(c4_save_states "\x7b\x7d" exStore4).1,
   (c4_save_states "\x7b\x7d" exStore4).2.1⟩

/-! ### Claim C9: removal of the translations block -/

theorem extract_none_eq (tag i : String) (f : HForest)
    (h : (extractForest tag i f).1 = none) :
    (extractForest tag i f).2 = f := by
  induction f with
  | nil => rfl
  | node t a s c sb ihc ihsb =>
    by_cases hcond : t = tag ∧ a = some i
    · simp [extractForest, hcond] at h
    · simp only [extractForest, if_neg hcond] at h ⊢
      cases hc : extractForest tag i c with
      | mk o c2 =>
        cases o with
        | some rc =>
          simp only [hc] at h
          exact Option.noConfusion h
        | none =>
          simp only [hc] at h ⊢
          rw [ihsb h]

theorem extract_some_perm (tag i : String) : ∀ (f r f' : HForest),
    extractForest tag i f = (some r, f') →
    (forestLabels f).Perm (forestLabels r ++ forestLabels f') ∧
    ∃ s c, r = HForest.node tag (some i) s c .nil := by
  intro f
  induction f with
  | nil => intro r f' h; simp [extractForest] at h
  | node t a s c sb ihc ihsb =>
    intro r f' h
    by_cases hcond : t = tag ∧ a = some i
    · simp only [extractForest, if_pos hcond] at h
      injection h with h1 h2
      injection h1 with h1
      subst h2
      rw [← h1]
      constructor
      · simp only [forestLabels, List.append_nil, List.cons_append,
          List.append_assoc]
        exact List.Perm.refl _
      · exact ⟨s, c, by rw [hcond.1, hcond.2]⟩
    · simp only [extractForest, if_neg hcond] at h
      cases hc : extractForest tag i c with
      | mk o c2 =>
        cases o with
        | some rc =>
          simp only [hc] at h
          injection h with h1 h2
          injection h1 with h1
          subst h2
          rw [← h1]
          obtain ⟨ihp, ihshape⟩ := ihc rc c2 hc
          refine ⟨?_, ihshape⟩
          simp only [forestLabels]
          have step1 : ((t, a, s) :: (forestLabels c ++ forestLabels sb)).Perm
              ((t, a, s) :: ((forestLabels rc ++ forestLabels c2)
                ++ forestLabels sb)) :=
            (ihp.append_right _).cons _
          have step2 : ((t, a, s) :: ((forestLabels rc ++ forestLabels c2)
                ++ forestLabels sb)).Perm
              (forestLabels rc ++ ((t, a, s)
                :: (forestLabels c2 ++ forestLabels sb))) := by
            rw [List.append_assoc]
            exact List.perm_middle.symm
          exact step1.trans step2
        | none =>
          simp only [hc] at h
          cases hs : extractForest tag i sb with
          | mk o2 sb2 =>
            simp only [hs] at h
            cases o2 with
            | none =>
              injection h with h1 h2
              exact Option.noConfusion h1
            | some rs =>
              injection h with h1 h2
              injection h1 with h1
              subst h2
              rw [← h1]
              obtain ⟨ihp, ihshape⟩ := ihsb rs sb2 hs
              refine ⟨?_, ihshape⟩
              simp only [forestLabels]
              have p1 : (forestLabels c ++ forestLabels sb).Perm
                  (forestLabels c ++ (forestLabels rs ++ forestLabels sb2)) :=
                List.Perm.append_left _ ihp
              have p2 : (forestLabels c ++ (forestLabels rs ++ forestLabels sb2)).Perm
                  (forestLabels rs ++ (forestLabels c ++ forestLabels sb2)) := by
                rw [← List.append_assoc, ← List.append_assoc]
                exact (List.perm_append_comm).append_right _
              have final : ((t, a, s) :: (forestLabels rs
                    ++ (forestLabels c ++ forestLabels sb2))).Perm
                  (forestLabels rs ++ ((t, a, s)
                    :: (forestLabels c ++ forestLabels sb2))) :=
                List.perm_middle.symm
              exact ((p1.trans p2).cons _).trans final

/-- Claim C9: if the page's HTML contains the `div#translations` container,
the transformed document contains neither that element nor any of its
descendants — the labels of the output decompose the input's labels minus
the extracted subtree, and under a unique container no `div#translations`
label survives; if the container is absent, the transform succeeds without
error and the document is saved unchanged apart from serialization. -/
theorem c9_translations_removed :
    (∀ (f r f' : HForest),
       extractForest "div" "translations" f = (some r, f') →
       (forestLabels f).Perm (forestLabels r ++ forestLabels f') ∧
       (∃ s c, r = HForest.node "div" (some "translations") s c .nil) ∧
       ((forestLabels f).countP
           (fun lbl => lbl.1 == "div" && lbl.2.1 == some "translations") = 1 →
         ∀ lbl ∈ forestLabels f',
           ¬ (lbl.1 = "div" ∧ lbl.2.1 = some "translations")))
    ∧ (∀ (env : ChefEnv) (n : String) (r : ArchiveRecord) (el : HForest),
        (extractForest "div" "translations" (env.client r.url).doc).1 = none →
        findForest "span" "share_title" (env.client r.url).doc = some el →
        ∃ out, processLang env n r = Except.ok out ∧
          out.writtenBytes = prettifyBytes (env.client r.url).doc) := by
  constructor
  · intro f r f' h
    obtain ⟨hperm, hshape⟩ := extract_some_perm "div" "translations" f r f' h
    refine ⟨hperm, hshape, ?_⟩
    intro hcount lbl hmem hlbl
    set p : String × Option String × String → Bool :=
      fun lbl => lbl.1 == "div" && lbl.2.1 == some "translations" with hp
    have hcnt : (forestLabels f).countP p
        = (forestLabels r).countP p + (forestLabels f').countP p := by
      rw [hperm.countP_eq, List.countP_append]
    obtain ⟨s, c, hr⟩ := hshape
    have hr1 : 1 ≤ (forestLabels r).countP p := by
      subst hr
      simp only [forestLabels, List.countP_cons, hp]
      simp
    have hf' : (forestLabels f').countP p = 0 := by omega
    have := List.countP_eq_zero.mp hf' lbl hmem
    apply this
    simp only [hp]
    simp [hlbl.1, hlbl.2]
  · intro env n r el hnone hfind
    have hd := extract_none_eq "div" "translations" (env.client r.url).doc hnone
    simp only [processLang, hd, hfind]
    exact ⟨_, rfl, rfl⟩

/-- Witness for C9: on the concrete page the container and its descendant
are removed; on the container-free page the transform succeeds and writes
the serialization of the unchanged document. -/
theorem c9_witness :
    extractForest "div" "translations" exPage.doc
      = (some exTransDiv, exPagePlain.doc) ∧
    (forestLabels exPage.doc).Perm
      (forestLabels exTransDiv ++ forestLabels exPagePlain.doc) ∧
    (∀ lbl ∈ forestLabels exPagePlain.doc,
      ¬ (lbl.1 = "div" ∧ lbl.2.1 = some "translations")) ∧
    ∃ out, processLang exEnvPlain "Deutsch" exRecK = Except.ok out ∧
      out.writtenBytes = prettifyBytes (exEnvPlain.client exRecK.url).doc := by
  have ha := c9_translations_removed.1 exPage.doc exTransDiv exPagePlain.doc (by rfl)
  have hb := c9_translations_removed.2 exEnvPlain "Deutsch" exRecK exTitleSpan
    (by rfl) (by rfl)
  exact ⟨by rfl, ha.1, ha.2.2 (by decide), hb⟩

/-! ### Dictionary lemmas -/

theorem findq_cons_true {β : Type} (f : β → Bool) (b : β) (l : List β)
    (h : f b = true) : (b :: l).find? f = some b :=
  List.find?_cons_of_pos _ h

theorem findq_cons_false {β : Type} (f : β → Bool) (b : β) (l : List β)
    (h : f b = false) : (b :: l).find? f = l.find? f :=
  List.find?_cons_of_neg _ (by simp [h])

theorem find?_update_self {α : Type} (k : String) (v : α) :
    ∀ ps : List (String × α), dictMem ps k = true →
    (ps.map (fun p => if p.1 == k then (k, v) else p)).find?
        (fun p => p.1 == k) = some (k, v) := by
  intro ps
  induction ps with
  | nil => intro h; simp [dictMem] at h
  | cons p ps ih =>
    intro h
    by_cases hp : (p.1 == k) = true
    · simp only [List.map_cons]
      rw [if_pos hp]
      rw [findq_cons_true (fun p => p.1 == k) (k, v) _ (by simp)]
    · have hp' : (p.1 == k) = false := by simpa using hp
      have h' : dictMem ps k = true := by
        simp only [dictMem, List.any_cons, Bool.or_eq_true] at h
        exact h.resolve_left hp
      simp only [List.map_cons]
      rw [if_neg hp]
      rw [findq_cons_false (fun p => p.1 == k) p _ hp']
      exact ih h'

theorem find?_append_self {α : Type} (k : String) (v : α) :
    ∀ ps : List (String × α), dictMem ps k = false →
    (ps ++ [(k, v)]).find? (fun p => p.1 == k) = some (k, v) := by
  intro ps
  induction ps with
  | nil =>
    intro _
    rw [List.nil_append]
    rw [findq_cons_true (fun p => p.1 == k) (k, v) _ (by simp)]
  | cons p ps ih =>
    intro h
    simp only [dictMem, List.any_cons, Bool.or_eq_false_iff] at h
    obtain ⟨hp, h'⟩ := h
    rw [List.cons_append]
    rw [findq_cons_false (fun p => p.1 == k) p _ hp]
    exact ih (by simpa [dictMem] using h')

theorem find?_update_ne {α : Type} (k : String) (v : α) (x : String)
    (hkx : (k == x) = false) :
    ∀ ps : List (String × α),
    (ps.map (fun p => if p.1 == k then (k, v) else p)).find?
        (fun p => p.1 == x) = ps.find? (fun p => p.1 == x) := by
  intro ps
  induction ps with
  | nil => rfl
  | cons p ps ih =>
    by_cases hp : (p.1 == k) = true
    · have hpx : (p.1 == x) = false := by
        rw [eq_of_beq hp]; exact hkx
      simp only [List.map_cons]
      rw [if_pos hp]
      rw [findq_cons_false (fun p => p.1 == x) (k, v) _ hkx]
      rw [findq_cons_false (fun p => p.1 == x) p _ hpx]
      exact ih
    · simp only [List.map_cons]
      rw [if_neg hp]
      cases hpx : (p.1 == x) with
      | true =>
        rw [findq_cons_true (fun p => p.1 == x) p _ hpx]
        rw [findq_cons_true (fun p => p.1 == x) p _ hpx]
      | false =>
        rw [findq_cons_false (fun p => p.1 == x) p _ hpx]
        rw [findq_cons_false (fun p => p.1 == x) p _ hpx]
        exact ih

theorem find?_append_ne {α : Type} (k : String) (v : α) (x : String)
    (hkx : (k == x) = false) :
    ∀ ps : List (String × α),
    (ps ++ [(k, v)]).find? (fun p => p.1 == x)
      = ps.find? (fun p => p.1 == x) := by
  intro ps
  induction ps with
  | nil =>
    rw [List.nil_append]
    rw [findq_cons_false (fun p => p.1 == x) (k, v) _ hkx]
  | cons p ps ih =>
    rw [List.cons_append]
    cases hpx : (p.1 == x) with
    | true =>
      rw [findq_cons_true (fun p => p.1 == x) p _ hpx]
      rw [findq_cons_true (fun p => p.1 == x) p _ hpx]
    | false =>
      rw [findq_cons_false (fun p => p.1 == x) p _ hpx]
      rw [findq_cons_false (fun p => p.1 == x) p _ hpx]
      exact ih

theorem dictGet_dictSet_self {α : Type} (d : List (String × α)) (k : String)
    (v : α) : dictGet (dictSet d k v) k = some v := by
  unfold dictGet dictSet
  by_cases hm : dictMem d k = true
  · rw [if_pos hm, find?_update_self k v d hm]
    rfl
  · have hm' : dictMem d k = false := by simpa using hm
    rw [if_neg hm, find?_append_self k v d hm']
    rfl

theorem dictGet_dictSet_ne {α : Type} (d : List (String × α)) (k : String)
    (v : α) {x : String} (hx : x ≠ k) :
    dictGet (dictSet d k v) x = dictGet d x := by
  have hkx : (k == x) = false := beq_eq_false_iff_ne.mpr (fun h => hx h.symm)
  unfold dictGet dictSet
  by_cases hm : dictMem d k = true
  · rw [if_pos hm, find?_update_ne k v x hkx d]
  · rw [if_neg hm, find?_append_ne k v x hkx d]

theorem dictMem_iff {α : Type} (d : List (String × α)) (k : String) :
    dictMem d k = true ↔ k ∈ dictKeys d := by
  unfold dictMem dictKeys
  rw [List.any_eq_true]
  constructor
  · rintro ⟨p, hp, hpk⟩
    exact List.mem_map.mpr ⟨p, hp, eq_of_beq hpk⟩
  · intro h
    obtain ⟨p, hp, hpk⟩ := List.mem_map.mp h
    refine ⟨p, hp, ?_⟩
    rw [hpk]
    exact beq_self_eq_true k

theorem mem_keys_dictSet {α : Type} (d : List (String × α)) (k : String)
    (v : α) (x : String) :
    x ∈ dictKeys (dictSet d k v) ↔ x ∈ dictKeys d ∨ x = k := by
  by_cases hm : dictMem d k = true
  · have hkeys : dictKeys (d.map (fun p => if p.1 == k then (k, v) else p))
        = dictKeys d := by
      unfold dictKeys
      rw [List.map_map]
      apply List.map_congr_left
      intro p _
      by_cases h : (p.1 == k) = true
      · simp only [Function.comp_apply, if_pos h]
        exact (eq_of_beq h).symm
      · simp only [Function.comp_apply, if_neg h]
    rw [dictSet, if_pos hm, hkeys]
    constructor
    · exact Or.inl
    · rintro (h | rfl)
      · exact h
      · exact (dictMem_iff d x).mp hm
  · rw [dictSet, if_neg hm]
    simp [dictKeys, List.map_append]

/-! ### Fetch-phase lemmas -/

theorem processLink_skip {env : FetchEnv} {d : List (String × ArchiveRecord)}
    {l : String × String}
    (h : strContains (pyStrip l.1) "translation" = true ∨
      validRec env d (pyStrip l.1) = true) :
    processLink env d l = (d, []) := by
  rcases h with h | h
  · simp [processLink, h]
  · by_cases hf : strContains (pyStrip l.1) "translation" = true
    · simp [processLink, hf]
    · simp only [processLink]
      rw [if_neg hf, if_pos h]

theorem processLink_fetch {env : FetchEnv} {d : List (String × ArchiveRecord)}
    {l : String × String}
    (hf : strContains (pyStrip l.1) "translation" = false)
    (hv : validRec env d (pyStrip l.1) = false) :
    processLink env d l
      = (dictSet d (pyStrip l.1) (env.getPage (appendSlash l.2)),
         [appendSlash l.2]) := by
  simp only [processLink]
  rw [if_neg (by simp [hf]), if_neg (by simp [hv])]

theorem validRec_mono {env : FetchEnv}
    (h : ∀ u, env.fileExists (env.getPage u).index_path = true)
    {d : List (String × ArchiveRecord)} {x : String}
    (hx : validRec env d x = true) (l : String × String) :
    validRec env (storeStep env d l) x = true := by
  unfold storeStep
  by_cases hf : strContains (pyStrip l.1) "translation" = true
  · rw [processLink_skip (Or.inl hf)]; exact hx
  · by_cases hv : validRec env d (pyStrip l.1) = true
    · rw [processLink_skip (Or.inr hv)]; exact hx
    · rw [processLink_fetch (by simpa using hf) (by simpa using hv)]
      by_cases hxl : x = pyStrip l.1
      · subst hxl
        unfold validRec
        rw [dictGet_dictSet_self]
        exact h _
      · unfold validRec at hx ⊢
        rw [dictGet_dictSet_ne _ _ _ hxl]
        exact hx

theorem fold_store_eq (env : FetchEnv) (links : List (String × String)) :
    ∀ p : List (String × ArchiveRecord) × List String,
    (links.foldl (fetchStep env) p).1 = links.foldl (storeStep env) p.1 := by
  induction links with
  | nil => intro p; rfl
  | cons l ls ih =>
    intro p
    simp only [List.foldl_cons]
    exact ih _

theorem fold_noop (env : FetchEnv) (links : List (String × String))
    (d : List (String × ArchiveRecord)) (fs : List String)
    (h : ∀ l ∈ links, processLink env d l = (d, [])) :
    links.foldl (fetchStep env) (d, fs) = (d, fs) := by
  induction links with
  | nil => rfl
  | cons l ls ih =>
    have h0 := h l (List.mem_cons_self l ls)
    simp only [List.foldl_cons, fetchStep, h0, List.append_nil]
    exact ih (fun x hx => h x (List.mem_cons_of_mem _ hx))

theorem download_noop (env : FetchEnv) (d : List (String × ArchiveRecord))
    (hEng : validRec env d "English" = true)
    (hLinks : ∀ links, env.translations = some links →
      ∀ l ∈ links, strContains (pyStrip l.1) "translation" = true ∨
        validRec env d (pyStrip l.1) = true) :
    download_content env d = (d, []) := by
  have hst : englishStep env d = (d, []) := by
    simp [englishStep, hEng]
  cases henv : env.translations with
  | none => simp [download_content, henv, hst]
  | some links =>
    simp only [download_content, henv, hst]
    exact fold_noop env links d []
      (fun l hl => processLink_skip (hLinks links henv l hl))

theorem english_valid {env : FetchEnv}
    (h : ∀ u, env.fileExists (env.getPage u).index_path = true)
    (d0 : List (String × ArchiveRecord)) :
    validRec env (englishStep env d0).1 "English" = true := by
  by_cases hE : validRec env d0 "English" = true
  · simp [englishStep, hE]
  · have hE' : validRec env d0 "English" = false := by simpa using hE
    simp only [englishStep, hE', Bool.false_eq_true, if_false]
    unfold validRec
    rw [dictGet_dictSet_self]
    exact h _

theorem valid_after_fold {env : FetchEnv}
    (h : ∀ u, env.fileExists (env.getPage u).index_path = true)
    (links : List (String × String)) :
    ∀ (d : List (String × ArchiveRecord)) (x : String),
    validRec env d x = true →
    validRec env (links.foldl (storeStep env) d) x = true := by
  induction links with
  | nil => intro d x hx; exact hx
  | cons l ls ih =>
    intro d x hx
    simp only [List.foldl_cons]
    exact ih _ _ (validRec_mono h hx l)

theorem link_valid_after_fold {env : FetchEnv}
    (h : ∀ u, env.fileExists (env.getPage u).index_path = true) :
    ∀ (links : List (String × String)) (d : List (String × ArchiveRecord)),
    ∀ l ∈ links, strContains (pyStrip l.1) "translation" = true ∨
      validRec env (links.foldl (storeStep env) d) (pyStrip l.1) = true := by
  intro links
  induction links with
  | nil => intro d l hl; cases hl
  | cons l0 ls ih =>
    intro d l hl
    rcases List.mem_cons.mp hl with h0 | hmem
    · subst h0
      by_cases hf : strContains (pyStrip l.1) "translation" = true
      · exact Or.inl hf
      · right
        simp only [List.foldl_cons]
        apply valid_after_fold h ls
        unfold storeStep
        by_cases hv : validRec env d (pyStrip l.1) = true
        · rw [processLink_skip (Or.inr hv)]; exact hv
        · rw [processLink_fetch (by simpa using hf) (by simpa using hv)]
          unfold validRec
          rw [dictGet_dictSet_self]
          exact h _
    · simp only [List.foldl_cons]
      exact ih _ l hmem

theorem mem_keys_englishStep {env : FetchEnv}
    {d0 : List (String × ArchiveRecord)} {y : String}
    (hy : y ∈ dictKeys (englishStep env d0).1) :
    y ∈ dictKeys d0 ∨ y = "English" := by
  by_cases hE : validRec env d0 "English" = true
  · simp only [englishStep, hE, if_true] at hy
    exact Or.inl hy
  · have hE' : validRec env d0 "English" = false := by simpa using hE
    simp only [englishStep, hE', Bool.false_eq_true, if_false] at hy
    exact (mem_keys_dictSet _ _ _ _).mp hy

theorem getform_preserved {env : FetchEnv}
    (allLinks : List (String × String)) :
    ∀ (L : List (String × String)) (d : List (String × ArchiveRecord))
      (x : String),
    (∀ l ∈ L, l ∈ allLinks) →
    (∃ t href, (t, href) ∈ allLinks ∧ x = pyStrip t ∧
       dictGet d x = some (env.getPage (appendSlash href))) →
    ∃ t href, (t, href) ∈ allLinks ∧ x = pyStrip t ∧
      dictGet (L.foldl (storeStep env) d) x
        = some (env.getPage (appendSlash href)) := by
  intro L
  induction L with
  | nil => intro d x _ hw; exact hw
  | cons l L2 ih =>
    intro d x hsub hw
    simp only [List.foldl_cons]
    apply ih _ x (fun a ha => hsub a (List.mem_cons_of_mem _ ha))
    unfold storeStep
    by_cases hf : strContains (pyStrip l.1) "translation" = true
    · rw [processLink_skip (Or.inl hf)]; exact hw
    · by_cases hv : validRec env d (pyStrip l.1) = true
      · rw [processLink_skip (Or.inr hv)]; exact hw
      · rw [processLink_fetch (by simpa using hf) (by simpa using hv)]
        by_cases hx : x = pyStrip l.1
        · refine ⟨l.1, l.2, hsub l (List.mem_cons_self l L2), hx, ?_⟩
          rw [hx, dictGet_dictSet_self]
        · obtain ⟨t, href, htl, hxt, hget⟩ := hw
          refine ⟨t, href, htl, hxt, ?_⟩
          rw [dictGet_dictSet_ne _ _ _ hx]
          exact hget

theorem fold_new_keys {env : FetchEnv} (allLinks : List (String × String)) :
    ∀ (L : List (String × String)) (d : List (String × ArchiveRecord))
      (x : String),
    (∀ l ∈ L, l ∈ allLinks) →
    x ∈ dictKeys (L.foldl (storeStep env) d) →
    x ∈ dictKeys d ∨
      (strContains x "translation" = false ∧
       ∃ t href, (t, href) ∈ allLinks ∧ x = pyStrip t ∧
         dictGet (L.foldl (storeStep env) d) x
           = some (env.getPage (appendSlash href))) := by
  intro L
  induction L with
  | nil => intro d x _ hx; exact Or.inl hx
  | cons l L2 ih =>
    intro d x hsub hx
    simp only [List.foldl_cons] at hx ⊢
    rcases ih _ x (fun a ha => hsub a (List.mem_cons_of_mem _ ha)) hx
      with hk | hw
    · by_cases hf : strContains (pyStrip l.1) "translation" = true
      · rw [show storeStep env d l = d from by
            unfold storeStep; rw [processLink_skip (Or.inl hf)]] at hk
        exact Or.inl hk
      · by_cases hv : validRec env d (pyStrip l.1) = true
        · rw [show storeStep env d l = d from by
              unfold storeStep; rw [processLink_skip (Or.inr hv)]] at hk
          exact Or.inl hk
        · rw [show storeStep env d l
                = dictSet d (pyStrip l.1) (env.getPage (appendSlash l.2)) from by
              unfold storeStep
              rw [processLink_fetch (by simpa using hf) (by simpa using hv)]]
            at hk
          rcases (mem_keys_dictSet _ _ _ _).mp hk with hk | hk
          · exact Or.inl hk
          · right
            refine ⟨by rw [hk]; simpa using hf, ?_⟩
            have hstep : storeStep env d l
                = dictSet d (pyStrip l.1) (env.getPage (appendSlash l.2)) := by
              unfold storeStep
              rw [processLink_fetch (by simpa using hf) (by simpa using hv)]
            rw [hstep]
            apply getform_preserved allLinks L2 _ x
              (fun a ha => hsub a (List.mem_cons_of_mem _ ha))
            refine ⟨l.1, l.2, hsub l (List.mem_cons_self l L2), hk, ?_⟩
            rw [hk, dictGet_dictSet_self]
    · exact Or.inr hw

/-! ### Claim C6: idempotent fetch -/

theorem skip_step {env : FetchEnv} {d : List (String × ArchiveRecord)}
    {x : String} (hx : validRec env d x = true) (l : String × String) :
    dictGet (storeStep env d l) x = dictGet d x ∧
    validRec env (storeStep env d l) x = true := by
  unfold storeStep
  by_cases hf : strContains (pyStrip l.1) "translation" = true
  · rw [processLink_skip (Or.inl hf)]
    exact ⟨rfl, hx⟩
  · by_cases hv : validRec env d (pyStrip l.1) = true
    · rw [processLink_skip (Or.inr hv)]
      exact ⟨rfl, hx⟩
    · rw [processLink_fetch (by simpa using hf) (by simpa using hv)]
      have hne : x ≠ pyStrip l.1 := by
        intro he
        rw [← he] at hv
        exact hv hx
      constructor
      · exact dictGet_dictSet_ne _ _ _ hne
      · unfold validRec at hx ⊢
        rw [dictGet_dictSet_ne _ _ _ hne]
        exact hx

theorem skip_fold {env : FetchEnv} (L : List (String × String)) :
    ∀ (d : List (String × ArchiveRecord)) (x : String),
    validRec env d x = true →
    dictGet (L.foldl (storeStep env) d) x = dictGet d x ∧
    validRec env (L.foldl (storeStep env) d) x = true := by
  induction L with
  | nil => intro d x hx; exact ⟨rfl, hx⟩
  | cons l ls ih =>
    intro d x hx
    obtain ⟨h1, h2⟩ := skip_step hx l
    obtain ⟨h3, h4⟩ := ih _ x h2
    simp only [List.foldl_cons]
    exact ⟨h3.trans h1, h4⟩

theorem english_skip {env : FetchEnv} {d0 : List (String × ArchiveRecord)}
    {x : String} (hx : validRec env d0 x = true) :
    dictGet (englishStep env d0).1 x = dictGet d0 x ∧
    validRec env (englishStep env d0).1 x = true := by
  by_cases hE : validRec env d0 "English" = true
  · constructor
    · simp [englishStep, hE]
    · simp only [englishStep, hE, if_true]
      exact hx
  · have hE' : validRec env d0 "English" = false := by simpa using hE
    have hne : x ≠ "English" := fun he => hE (he ▸ hx)
    simp only [englishStep, hE', Bool.false_eq_true, if_false]
    constructor
    · exact dictGet_dictSet_ne _ _ _ hne
    · unfold validRec at hx ⊢
      rw [dictGet_dictSet_ne _ _ _ hne]
      exact hx

theorem download_skip (env : FetchEnv) (d0 : List (String × ArchiveRecord))
    (x : String) (hx : validRec env d0 x = true) :
    dictGet (download_content env d0).1 x = dictGet d0 x := by
  cases henv : env.translations with
  | none =>
    simp only [download_content, henv]
    exact (english_skip hx).1
  | some links =>
    simp only [download_content, henv]
    rw [fold_store_eq]
    obtain ⟨h1, h2⟩ := english_skip hx
    obtain ⟨h3, _⟩ := skip_fold links _ x h2
    exact h3.trans h1

/-- Claim C6: for every language that already has a valid record in the
loaded store (its index path exists on disk), the fetch phase performs no
fetch for that language, whatever the rest of the store looks like: a
valid English record makes the root-page step a no-op; a valid record for
a translation link's language makes that loop iteration a no-op (no
network call, no store change); and across the whole run the language's
record in the final store equals its record in the loaded store.
Consequently, when fetched pages land on disk, running the fetch phase
twice against an unchanged remote site makes no network call in the second
run and leaves the store unchanged. -/
theorem c6_idempotent_fetch :
    (∀ (env : FetchEnv) (d0 : List (String × ArchiveRecord)),
       validRec env d0 "English" = true → englishStep env d0 = (d0, []))
    ∧ (∀ (env : FetchEnv) (d : List (String × ArchiveRecord))
         (l : String × String),
        validRec env d (pyStrip l.1) = true → processLink env d l = (d, []))
    ∧ (∀ (env : FetchEnv) (d0 : List (String × ArchiveRecord)) (x : String),
        validRec env d0 x = true →
        dictGet (download_content env d0).1 x = dictGet d0 x)
    ∧ (∀ (env : FetchEnv) (d0 : List (String × ArchiveRecord)),
        (∀ u, env.fileExists (env.getPage u).index_path = true) →
        download_content env (download_content env d0).1
          = ((download_content env d0).1, [])) := by
  refine ⟨?_, ?_, ?_, ?_⟩
  · intro env d0 hE
    simp [englishStep, hE]
  · intro env d l hv
    exact processLink_skip (Or.inr hv)
  · exact download_skip
  · intro env d0 h
    apply download_noop
    · cases henv : env.translations with
      | none =>
        simp only [download_content, henv]
        exact english_valid h d0
      | some links =>
        simp only [download_content, henv]
        rw [fold_store_eq]
        exact valid_after_fold h links _ _ (english_valid h d0)
    · intro links hlinks l hl
      cases henv : env.translations with
      | none => rw [henv] at hlinks; cases hlinks
      | some links2 =>
        rw [henv] at hlinks
        injection hlinks with hlinks
        subst hlinks
        simp only [download_content, henv]
        rw [fold_store_eq]
        exact link_valid_after_fold h links2 _ l hl

/-- Witness for C6: in a mixed-validity store (Français valid, English's
index page missing, Deutsch absent) the Français iteration is a no-op and
its record survives the run unchanged while the others are fetched; a
valid English record skips the root fetch; and a second run over the
output of a first run (from the empty store) is a no-op. -/
theorem c6_witness :
    validRec exEnvMix exDataMix "Français" = true ∧
    processLink exEnvMix exDataMix
        ("Français ", "https://ncase.me/covid-19/fr") = (exDataMix, []) ∧
    dictGet (download_content exEnvMix exDataMix).1 "Français"
      = dictGet exDataMix "Français" ∧
    englishStep exFetchEnv exData6v = (exData6v, []) ∧
    download_content exFetchEnv ((download_content exFetchEnv exData6).1)
      = ((download_content exFetchEnv exData6).1, []) := by
  refine ⟨by decide, ?_, ?_, ?_, ?_⟩
  · exact c6_idempotent_fetch.2.1 exEnvMix exDataMix
      ("Français ", "https://ncase.me/covid-19/fr") (by decide)
  · exact c6_idempotent_fetch.2.2.1 exEnvMix exDataMix "Français" (by decide)
  · exact c6_idempotent_fetch.1 exFetchEnv exData6v (by decide)
  · exact c6_idempotent_fetch.2.2.2 exFetchEnv exData6 (fun u => rfl)

/-! ### Claim C10: keys added by the fetch loop -/

theorem endsSlash_appendSlash (u : String) :
    endsSlash (appendSlash u) = true := by
  unfold appendSlash
  by_cases h : endsSlash u = true
  · rw [if_pos h]; exact h
  · rw [if_neg h]
    unfold endsSlash
    rw [String.data_append]
    rw [show ("/" : String).data = ['/'] from rfl]
    rw [List.getLast?_concat]
    simp

/-- Counterexample for C10: a loaded store may already hold a key that is
the text of a translations link containing "translation", with a record
URL lacking the trailing slash; `download_content` keeps it untouched, so
the claimed invariant fails on the post-state. -/
theorem c10_counterexample :
    download_content exEnvX exDataX = (exDataX, []) ∧
    "Xtranslation" ∈ dictKeys (download_content exEnvX exDataX).1 ∧
    "Xtranslation" ≠ "English" ∧
    exEnvX.translations = some [("Xtranslation", "https://x.example/a")] ∧
    pyStrip "Xtranslation" = "Xtranslation" ∧
    strContains "Xtranslation" "translation" = true ∧
    dictGet (download_content exEnvX exDataX).1 "Xtranslation" = some exRecX ∧
    exRecX.url = "nope" ∧
    endsSlash "nope" = false := by
  refine ⟨by decide, by decide, by decide, rfl, by decide, by decide,
    by decide, rfl, by decide⟩

/-- Claim C10 (amended): every key the fetch loop adds to the store (one
not already present in the loaded store, other than "English") is the
stripped text of a translations-block link that does not contain the
substring "translation" (the "Help make a translation" link is filtered
out), and it maps to the record fetched from that link's href with a
trailing slash appended — a URL ending in "/". -/
theorem c10_new_keys (env : FetchEnv) (d0 : List (String × ArchiveRecord))
    (x : String)
    (h1 : x ∈ dictKeys (download_content env d0).1)
    (h2 : x ∉ dictKeys d0) (h3 : x ≠ "English") :
    strContains x "translation" = false ∧
    ∃ links t href, env.translations = some links ∧ (t, href) ∈ links ∧
      x = pyStrip t ∧ endsSlash (appendSlash href) = true ∧
      dictGet (download_content env d0).1 x
        = some (env.getPage (appendSlash href)) := by
  cases henv : env.translations with
  | none =>
    simp only [download_content, henv] at h1
    rcases mem_keys_englishStep h1 with hx | hx
    · exact absurd hx h2
    · exact absurd hx h3
  | some links =>
    simp only [download_content, henv] at h1 ⊢
    rw [fold_store_eq] at h1 ⊢
    rcases fold_new_keys links links _ x (fun a ha => ha) h1 with
      hx | ⟨hfil, t, href, htl, hxt, hget⟩
    · rcases mem_keys_englishStep hx with hk | hk
      · exact absurd hk h2
      · exact absurd hk h3
    · exact ⟨hfil, links, t, href, rfl, htl, hxt,
        endsSlash_appendSlash href, hget⟩

/-- Witness for C10 (amended): the key "Français", added by fetching the
concrete translations link, satisfies the invariant. -/
theorem c10_witness :
    ("Français" ∈ dictKeys (download_content exFetchEnv exData6).1) ∧
    ("Français" ∉ dictKeys exData6) ∧
    ("Français" : String) ≠ "English" ∧
    (strContains "Français" "translation" = false ∧
     ∃ links t href, exFetchEnv.translations = some links ∧
       (t, href) ∈ links ∧ "Français" = pyStrip t ∧
       endsSlash (appendSlash href) = true ∧
       dictGet (download_content exFetchEnv exData6).1 "Français"
         = some (exFetchEnv.getPage (appendSlash href))) :=
  ⟨by decide, by decide, by decide,
   c10_new_keys exFetchEnv exData6 "Français" (by decide) (by decide)
     (by decide)⟩

end Covid19Sim
